import Mathlib

/-!
Verification development for the number-theoretic planning core
(`src/math_utils.rs`). Each Rust function is shallowly embedded as an
executable Lean function over `Nat` (for the unsigned `u64`/`usize`/`u32`
code) or `Int` (for the signed code). The `while` loops of the source are
embedded as structurally recursive functions with an explicit fuel
parameter; every top-level entry point supplies fuel that is proved (or
provable) sufficient, so on the domains claimed by the specification the
embedding computes exactly what the source computes.

The `u64` arithmetic of the source wraps modulo `2 ^ 64`; wherever a
product of the source can exceed `u64::MAX` the embedding carries an
explicit `% 2 ^ 64` (in `modExpLoop` and `mulInvLoop`); the correctness
theorems about those functions restrict their operands to the range where
the wrap provably cannot fire, and the counterexamples exercise the wrap
itself.  Products that are bounded by one of their operands (such as
`quotient * r_new ≤ r`) cannot overflow and carry no marker.

The source computes its trial-division bound as
`(n as f32).sqrt() as u64 + 1`.  Here that bound is embedded as
`isqrt n + 1` with `isqrt` the exact integer square root (proved equal to
`Nat.sqrt`).  For large inputs the f32 value can fall short of the exact
root (at `n = 2147483659 ^ 2` the f32 bound is `2147483649`, below the
prime factor `2147483659`), so lemmas about the bound-using functions
(`PrimeFactors.compute` and its stages) describe the embedding, and hence
the program exactly where the two bounds select the same divisors; the
claim-level theorems evaluate those functions only at small concrete
values, where the bounds agree.
-/

/-- The integer square root, by upward search: `isqrtFrom fuel k n` returns the
least `j ≥ k` with `n < (j+1)^2`, given enough fuel. Structural recursion keeps
it kernel-reducible. -/
def isqrtFrom : Nat → Nat → Nat → Nat
  | 0, k, _ => k
  | fuel+1, k, n => if n < (k+1)*(k+1) then k else isqrtFrom fuel (k+1) n

/-- The integer square root. Embeds the source's `(n as f32).sqrt() as u64`
(exact on the range where `f32` represents `n` and its square root exactly). -/
def isqrt (n : Nat) : Nat := isqrtFrom n 0 n

/-- One combined embedding of the source's repeated-division loops
(`while n % d == 0 { n /= d; count += 1 }`): returns the number of times `d`
was divided out together with the remaining cofactor. -/
def divideOutFuel : Nat → Nat → Nat → Nat × Nat
  | 0, n, _ => (0, n)
  | fuel+1, n, d =>
    if n % d = 0 then
      let r := divideOutFuel fuel (n / d) d
      (r.1 + 1, r.2)
    else (0, n)

/-- Ideal (non-wrapping) square-and-multiply loop: the mathematical model
that `modExpLoop` coincides with as long as no `u64` product overflows. -/
def modExpLoopM : Nat → Nat → Nat → Nat → Nat → Nat
  | 0, result, _, _, _ => result
  | fuel+1, result, base, exponent, modulo =>
    if 0 < exponent then
      let result' := if exponent % 2 = 1 then result * base % modulo else result
      modExpLoopM fuel result' (base * base % modulo) (exponent / 2) modulo
    else result

/-- Loop body of `modular_exponent` at `T = u64`: square-and-multiply where
both products `result * base` and `base * base` wrap modulo `2 ^ 64` exactly
as the machine multiplication does. `exponent % 2 = 1` embeds the source's
`exponent & one == one` odd test and `exponent / 2` its `exponent >> 1`. -/
def modExpLoop : Nat → Nat → Nat → Nat → Nat → Nat
  | 0, result, _, _, _ => result
  | fuel+1, result, base, exponent, modulo =>
    if 0 < exponent then
      let result' := if exponent % 2 = 1 then result * base % 2 ^ 64 % modulo else result
      modExpLoop fuel result' (base * base % 2 ^ 64 % modulo) (exponent / 2) modulo
    else result

/-- Embedding of `modular_exponent` at `T = u64`. The exponent itself is
sufficient fuel since it at least halves every iteration. -/
def modular_exponent (base exponent modulo : Nat) : Nat :=
  modExpLoop exponent 1 base exponent modulo

/-- Ideal (non-wrapping) half-extended-Euclid loop: the mathematical model
that `mulInvLoop` coincides with as long as `quotient * t_new` does not
overflow. -/
def mulInvLoopM : Nat → Nat → Nat → Nat → Nat → Nat → Nat
  | 0, _, t, _, _, _ => t
  | fuel+1, n, t, t_new, r, r_new =>
    if 0 < r_new then
      let quotient := r / r_new
      let r' := r - quotient * r_new
      let t_subtract := quotient * t_new
      let t' := if t_subtract < t then t - t_subtract else n - (t_subtract - t) % n
      mulInvLoopM fuel n t_new t' r_new r'
    else t

/-- Loop of `multiplicative_inverse` at `T = u64`: half extended Euclid
tracking only the coefficient of `a`, with the source's wrap-around
subtraction `n - (t_subtract - t) % n` for would-be-negative values. The
product `quotient * t_new` is a machine multiplication and wraps modulo
`2 ^ 64` (while `quotient * r_new ≤ r` can never overflow). The argument
order after the recursive call mirrors the source's two `swap` calls. -/
def mulInvLoop : Nat → Nat → Nat → Nat → Nat → Nat → Nat
  | 0, _, t, _, _, _ => t
  | fuel+1, n, t, t_new, r, r_new =>
    if 0 < r_new then
      let quotient := r / r_new
      let r' := r - quotient * r_new
      let t_subtract := quotient * t_new % 2 ^ 64
      let t' := if t_subtract < t then t - t_subtract else n - (t_subtract - t) % n
      mulInvLoop fuel n t_new t' r_new r'
    else t

/-- Embedding of `multiplicative_inverse` at `T = u64`. Fuel `a` suffices:
the Euclidean remainder `r_new` strictly decreases every iteration. -/
def multiplicative_inverse (a n : Nat) : Nat := mulInvLoop a n 0 1 n a

/-- Loop of `extended_euclidean_algorithm` over signed integers. `Int.tdiv` is
truncation toward zero, exactly the semantics of Rust's signed `/`. -/
def eeaLoop : Nat → Int → Int → Int → Int → Int → Int → Int × Int × Int
  | 0, r_old, _, s_old, _, t_old, _ => (r_old, s_old, t_old)
  | fuel+1, r_old, r, s_old, s, t_old, t =>
    if 0 < r then
      let quotient := Int.tdiv r_old r
      eeaLoop fuel r (r_old - quotient * r) s (s_old - quotient * s) t (t_old - quotient * t)
    else (r_old, s_old, t_old)

/-- Embedding of `extended_euclidean_algorithm`. Initial state mirrors the
source (`s = 0`, `s_old = 1`, `t = 1`, `t_old = 0`, `r = b`, `r_old = a`);
fuel `b.toNat + 1` suffices since `r.toNat` strictly decreases. -/
def extended_euclidean_algorithm (a b : Int) : Int × Int × Int :=
  eeaLoop (b.toNat + 1) a b 1 0 0 1

/-- Odd-divisor loop of `distinct_prime_factors`: candidates step by 2, the
`√n + 1` limit is re-derived from the current `n` (the source recomputes it
only when a factor was removed, but `n` is unchanged otherwise, so the value
agrees), each divisor found is fully divided out and recorded once. -/
def dpfLoop : Nat → Nat → Nat → List Nat × Nat
  | 0, n, _ => ([], n)
  | fuel+1, n, divisor =>
    if divisor < isqrt n + 1 then
      if n % divisor = 0 then
        let rest := dpfLoop fuel (divideOutFuel n n divisor).2 (divisor + 2)
        (divisor :: rest.1, rest.2)
      else dpfLoop fuel n (divisor + 2)
    else ([], n)

/-- Embedding of `distinct_prime_factors`: 2 handled specially, then the odd
loop from 3, then the `> 1` residual is itself recorded. -/
def distinct_prime_factors (n : Nat) : List Nat :=
  let first := if n % 2 = 0 then ([2], (divideOutFuel n n 2).2) else ([], n)
  if 1 < first.2 then
    let lm := dpfLoop (isqrt first.2 + 1) first.2 3
    first.1 ++ lm.1 ++ (if 1 < lm.2 then [lm.2] else [])
  else first.1

/-- Embedding of `primitive_root`: candidates `2..prime` in order, a candidate
is rejected iff some test exponent `(prime-1)/factor` sends it to 1; the first
surviving candidate is returned (`List.find?` embeds the labelled
`continue`/`return` control flow). -/
def primitive_root (prime : Nat) : Option Nat :=
  let test_exponents := (distinct_prime_factors (prime - 1)).map
    (fun factor => (prime - 1) / factor)
  (List.range' 2 (prime - 2)).find?
    (fun g => test_exponents.all (fun exp => modular_exponent g exp prime != 1))

/-- Embedding of the `PrimeFactor` struct (`value: usize`, `count: u32`). -/
structure PrimeFactor where
  value : Nat
  count : Nat
deriving DecidableEq, Repr

/-- Embedding of the `PrimeFactors` struct. -/
structure PrimeFactors where
  other_factors : List PrimeFactor
  n : Nat
  power_two : Nat
  power_three : Nat
  total_factor_count : Nat
  distinct_factor_count : Nat
deriving DecidableEq, Repr

/-- Product `Π value^count` over a factor list, the reconstruction the
specification and the source's consistency test both use. -/
def otherProd (l : List PrimeFactor) : Nat := (l.map (fun e => e.value ^ e.count)).prod

/-- Sum of the multiplicities of a factor list. -/
def countsSum (l : List PrimeFactor) : Nat := (l.map (fun e => e.count)).sum

/-- Odd-divisor loop of `PrimeFactors::compute`, from candidate 5 upward;
identical control flow to `dpfLoop` but each divisor is recorded with its
full multiplicity. -/
def otherLoop : Nat → Nat → Nat → List PrimeFactor × Nat
  | 0, n, _ => ([], n)
  | fuel+1, n, divisor =>
    if divisor < isqrt n + 1 then
      let cm := divideOutFuel n n divisor
      if 0 < cm.1 then
        let rest := otherLoop fuel cm.2 (divisor + 2)
        (⟨divisor, cm.1⟩ :: rest.1, rest.2)
      else otherLoop fuel n (divisor + 2)
    else ([], n)

/-- Stage of `PrimeFactors::compute` guarded by `if n > 1`: the odd-divisor
loop applied to the residual after the powers of 2 and 3 are removed. -/
def computeOthersPair (n2 : Nat) : List PrimeFactor × Nat :=
  if 1 < n2 then otherLoop (isqrt n2 + 1) n2 5 else ([], n2)

/-- The final `other_factors` list of `PrimeFactors::compute`: the loop's
entries plus, when the remaining cofactor exceeds 1, that cofactor as a final
entry with count 1. -/
def computeOthers (n2 : Nat) : List PrimeFactor :=
  if 1 < (computeOthersPair n2).2 then
    (computeOthersPair n2).1 ++ [⟨(computeOthersPair n2).2, 1⟩]
  else (computeOthersPair n2).1

/-- Embedding of `PrimeFactors::compute`. `divideOutFuel n n 2` embeds
`n.trailing_zeros()` plus `n >>= power_two` (identical for `n ≥ 1`); the
aggregate counts are written as their closed forms, which are exactly what the
source's incremental `+=` accumulation totals up to. -/
def PrimeFactors.compute (n : Nat) : PrimeFactors :=
  let d2 := divideOutFuel n n 2
  let d3 := divideOutFuel d2.2 d2.2 3
  { other_factors := computeOthers d3.2
    n := n
    power_two := d2.1
    power_three := d3.1
    total_factor_count := d2.1 + d3.1 + countsSum (computeOthers d3.2)
    distinct_factor_count :=
      (if 0 < d2.1 then 1 else 0) + (if 0 < d3.1 then 1 else 0)
        + (computeOthers d3.2).length }

/-- Embedding of `PrimeFactors::is_prime`. -/
def PrimeFactors.is_prime (f : PrimeFactors) : Bool := f.total_factor_count == 1

/-- Embedding of `PrimeFactors::get_product`. -/
def PrimeFactors.get_product (f : PrimeFactors) : Nat := f.n

/-- Embedding of `PrimeFactors::get_total_factor_count`. -/
def PrimeFactors.get_total_factor_count (f : PrimeFactors) : Nat := f.total_factor_count

/-- Embedding of `PrimeFactors::get_distinct_factor_count`. -/
def PrimeFactors.get_distinct_factor_count (f : PrimeFactors) : Nat := f.distinct_factor_count

/-- Embedding of `PrimeFactors::get_power_of_two`. -/
def PrimeFactors.get_power_of_two (f : PrimeFactors) : Nat := f.power_two

/-- Embedding of `PrimeFactors::get_power_of_three`. -/
def PrimeFactors.get_power_of_three (f : PrimeFactors) : Nat := f.power_three

/-- Embedding of `PrimeFactors::get_other_factors`. -/
def PrimeFactors.get_other_factors (f : PrimeFactors) : List PrimeFactor := f.other_factors

/-- Decrement of the first entry of the list whose `value` matches, by `c`
(the in-place mutation through `iter_mut().find(..)` of the source). -/
def updateFirst : List PrimeFactor → Nat → Nat → List PrimeFactor
  | [], _, _ => []
  | e :: rest, v, c =>
    if e.value = v then ⟨e.value, e.count - c⟩ :: rest else e :: updateFirst rest v c

/-- Embedding of `PrimeFactors::remove_factors`. The subtractions are exact on
the documented precondition (`count` at most the stored exponent), matching the
source's `checked_sub(..).unwrap()`; the `find(..).unwrap()` panic path
(value absent from `other`) is embedded as `none` and is likewise outside the
precondition. NOTE: in the `value == 3` arm the source tests
`self.power_two == 0` (not `power_three`) before decrementing
`distinct_factor_count`; that is mirrored here verbatim. -/
def PrimeFactors.remove_factors (f : PrimeFactors) (factor : PrimeFactor) : Option PrimeFactors :=
  if factor.count = 0 then some f
  else if factor.value = 2 then
    let p2 := f.power_two - factor.count
    let f' : PrimeFactors :=
      { other_factors := f.other_factors
        n := f.n / 2 ^ factor.count
        power_two := p2
        power_three := f.power_three
        total_factor_count := f.total_factor_count - factor.count
        distinct_factor_count :=
          if p2 = 0 then f.distinct_factor_count - 1 else f.distinct_factor_count }
    if 1 < f'.n then some f' else none
  else if factor.value = 3 then
    let p3 := f.power_three - factor.count
    let f' : PrimeFactors :=
      { other_factors := f.other_factors
        n := f.n / 3 ^ factor.count
        power_two := f.power_two
        power_three := p3
        total_factor_count := f.total_factor_count - factor.count
        distinct_factor_count :=
          if f.power_two = 0 then f.distinct_factor_count - 1 else f.distinct_factor_count }
    if 1 < f'.n then some f' else none
  else
    match f.other_factors.find? (fun e => e.value == factor.value) with
    | none => none
    | some found =>
      let newCount := found.count - factor.count
      let updated := updateFirst f.other_factors factor.value factor.count
      let f' : PrimeFactors :=
        { other_factors :=
            if newCount = 0 then updated.filter (fun e => e.value != factor.value) else updated
          n := f.n / factor.value ^ factor.count
          power_two := f.power_two
          power_three := f.power_three
          total_factor_count := f.total_factor_count - factor.count
          distinct_factor_count :=
            if newCount = 0 then f.distinct_factor_count - 1 else f.distinct_factor_count }
      if 1 < f'.n then some f' else none

/-- Embedding of `PrimeFactors::partition_factors`. The `assert!(!is_prime())`
of the source is a precondition of the claims, not part of the value-level
behaviour. Case 1 builds `new_product` by the same successive multiplications
as the source; case 2 mirrors the `first_mut` / `power_two` / `power_three`
branch chain including the untouched fall-through; case 3 is the greedy
distribution followed by recomputation. -/
def PrimeFactors.partition_factors (f : PrimeFactors) : PrimeFactors × PrimeFactors :=
  if f.power_two % 2 = 0 ∧ f.power_three % 2 = 0 ∧ (∀ e ∈ f.other_factors, e.count % 2 = 0) then
    let half : PrimeFactors :=
      { other_factors := f.other_factors.map (fun e => ⟨e.value, e.count / 2⟩)
        n := f.other_factors.foldl (fun acc e => acc * e.value ^ (e.count / 2))
              (2 ^ (f.power_two / 2) * 3 ^ (f.power_three / 2))
        power_two := f.power_two / 2
        power_three := f.power_three / 2
        total_factor_count := f.total_factor_count / 2
        distinct_factor_count := f.distinct_factor_count }
    (half, half)
  else if f.distinct_factor_count = 1 then
    let half0 : PrimeFactors :=
      { other_factors := []
        n := f.n
        power_two := f.power_two / 2
        power_three := f.power_three / 2
        total_factor_count := f.total_factor_count / 2
        distinct_factor_count := 1 }
    let sp2 := f.power_two - half0.power_two
    let sp3 := f.power_three - half0.power_three
    let stc := f.total_factor_count - half0.total_factor_count
    match f.other_factors with
    | first_factor :: rest =>
      let half_factor : PrimeFactor := ⟨first_factor.value, first_factor.count / 2⟩
      let self_count := first_factor.count - half_factor.count
      ({ other_factors := ⟨first_factor.value, self_count⟩ :: rest
         n := first_factor.value ^ self_count
         power_two := sp2
         power_three := sp3
         total_factor_count := stc
         distinct_factor_count := f.distinct_factor_count },
       { half0 with other_factors := [half_factor], n := half_factor.value ^ half_factor.count })
    | [] =>
      if 0 < half0.power_two then
        ({ other_factors := []
           n := 2 ^ sp2
           power_two := sp2
           power_three := sp3
           total_factor_count := stc
           distinct_factor_count := f.distinct_factor_count },
         { half0 with n := 2 ^ half0.power_two })
      else if 0 < half0.power_three then
        ({ other_factors := []
           n := 3 ^ sp3
           power_two := sp2
           power_three := sp3
           total_factor_count := stc
           distinct_factor_count := f.distinct_factor_count },
         { half0 with n := 3 ^ half0.power_three })
      else
        ({ other_factors := []
           n := f.n
           power_two := sp2
           power_three := sp3
           total_factor_count := stc
           distinct_factor_count := f.distinct_factor_count },
         half0)
  else
    let lr0 := f.other_factors.foldl
      (fun lr e =>
        let factor_product := e.value ^ e.count
        if lr.1 ≤ lr.2 then (lr.1 * factor_product, lr.2) else (lr.1, lr.2 * factor_product))
      (1, 1)
    let lr1 :=
      if lr0.1 ≤ lr0.2 then (lr0.1 * 2 ^ f.power_two, lr0.2)
      else (lr0.1, lr0.2 * 2 ^ f.power_two)
    let lr2 :=
      if 0 < f.power_three ∧ lr1.1 ≤ lr1.2 then (lr1.1 * 3 ^ f.power_three, lr1.2)
      else (lr1.1, lr1.2 * 3 ^ f.power_three)
    (PrimeFactors.compute lr2.1, PrimeFactors.compute lr2.2)

/-- All `Factorization` invariants of the specification (section 3): product
reconstructable from the stored fields, `power_two`/`power_three` maximal
(the residual of the other factors is coprime to 2 and 3), `other` entries
prime, greater than 3, of positive multiplicity, strictly ascending (hence
pairwise distinct), and the two cached aggregate counts. -/
def PrimeFactors.Valid (f : PrimeFactors) : Prop :=
  f.n = 2 ^ f.power_two * 3 ^ f.power_three * otherProd f.other_factors
  ∧ ¬ 2 ∣ otherProd f.other_factors
  ∧ ¬ 3 ∣ otherProd f.other_factors
  ∧ (∀ e ∈ f.other_factors, (e.value).Prime ∧ 3 < e.value ∧ 1 ≤ e.count)
  ∧ f.other_factors.Pairwise (fun a b => a.value < b.value)
  ∧ f.total_factor_count = f.power_two + f.power_three + countsSum f.other_factors
  ∧ f.distinct_factor_count =
      (if 0 < f.power_two then 1 else 0) + (if 0 < f.power_three then 1 else 0)
        + f.other_factors.length

instance (f : PrimeFactors) : Decidable f.Valid := by
  unfold PrimeFactors.Valid
  infer_instance

/-! ## Basic facts about the embedded primitives -/

theorem isqrtFrom_eq (fuel k n : Nat) (h1 : k ≤ Nat.sqrt n) (h2 : Nat.sqrt n ≤ k + fuel) :
    isqrtFrom fuel k n = Nat.sqrt n := by
  induction fuel generalizing k with
  | zero => simp only [isqrtFrom]; omega
  | succ fuel ih =>
    simp only [isqrtFrom]
    by_cases h : n < (k+1)*(k+1)
    · have := Nat.sqrt_lt.mpr h
      simp only [if_pos h]
      omega
    · simp only [if_neg h]
      exact ih (k+1) (Nat.le_sqrt.mpr (by omega)) (by omega)

theorem isqrt_eq (n : Nat) : isqrt n = Nat.sqrt n :=
  isqrtFrom_eq n 0 n (Nat.zero_le _) (by simpa using Nat.sqrt_le_self n)

theorem modExpLoopM_exp_zero (fuel result base modulo : Nat) :
    modExpLoopM fuel result base 0 modulo = result := by
  cases fuel <;> simp [modExpLoopM]

theorem modExpLoopM_eq (fuel : Nat) :
    ∀ result base exponent modulo : Nat, 0 < exponent → exponent ≤ fuel →
      modExpLoopM fuel result base exponent modulo = result * base ^ exponent % modulo := by
  induction fuel with
  | zero => intro r b e m he hef; omega
  | succ fuel ih =>
    intro r b e m he hef
    simp only [modExpLoopM, if_pos he]
    by_cases h1 : e = 1
    · subst h1
      simp [modExpLoopM_exp_zero]
    · have hpos : 0 < e / 2 := by omega
      have hh : e / 2 ≤ fuel := by omega
      rw [ih _ _ _ _ hpos hh]
      have hb : ∀ k : Nat, (b * b % m) ^ k % m = b ^ (2 * k) % m := by
        intro k
        rw [← Nat.pow_mod]
        congr 1
        rw [two_mul, pow_add, ← mul_pow]
      by_cases hpar : e % 2 = 1
      · rw [if_pos hpar]
        have hee : 2 * (e / 2) + 1 = e := by omega
        calc r * b % m * (b * b % m) ^ (e / 2) % m
            = r * b % m % m * ((b * b % m) ^ (e / 2) % m) % m := by rw [Nat.mul_mod]
          _ = r * b % m * (b ^ (2 * (e / 2)) % m) % m := by
              rw [Nat.mod_mod_of_dvd _ dvd_rfl, hb]
          _ = r * b * b ^ (2 * (e / 2)) % m := by rw [← Nat.mul_mod]
          _ = r * b ^ e % m := by rw [mul_assoc, ← pow_succ', hee]
      · rw [if_neg hpar]
        have hee : 2 * (e / 2) = e := by omega
        calc r * (b * b % m) ^ (e / 2) % m
            = r % m * ((b * b % m) ^ (e / 2) % m) % m := by rw [Nat.mul_mod]
          _ = r % m * (b ^ (2 * (e / 2)) % m) % m := by rw [hb]
          _ = r * b ^ (2 * (e / 2)) % m := by rw [← Nat.mul_mod]
          _ = r * b ^ e % m := by rw [hee]

/-- Below `2 ^ 32` no `u64` product of the square-and-multiply loop can
overflow: `result` and (after the first squaring) `base` stay below the
modulus, which is at most `2 ^ 32`, so the wrapped loop agrees with the
ideal one. -/
theorem modExpLoop_eq_model (fuel : Nat) :
    ∀ result base exponent modulo : Nat, 0 < modulo → modulo ≤ 2 ^ 32 →
      result < 2 ^ 32 → base < 2 ^ 32 →
      modExpLoop fuel result base exponent modulo
        = modExpLoopM fuel result base exponent modulo := by
  induction fuel with
  | zero => intro r b e m _ _ _ _; rfl
  | succ fuel ih =>
    intro r b e m hm hm32 hr hb
    simp only [modExpLoop, modExpLoopM]
    by_cases he : 0 < e
    · rw [if_pos he, if_pos he]
      have hrb : r * b < 2 ^ 64 := by
        calc r * b ≤ (2 ^ 32 - 1) * (2 ^ 32 - 1) := Nat.mul_le_mul (by omega) (by omega)
          _ < 2 ^ 64 := by norm_num
      have hbb : b * b < 2 ^ 64 := by
        calc b * b ≤ (2 ^ 32 - 1) * (2 ^ 32 - 1) := Nat.mul_le_mul (by omega) (by omega)
          _ < 2 ^ 64 := by norm_num
      rw [Nat.mod_eq_of_lt hrb, Nat.mod_eq_of_lt hbb]
      refine ih _ _ _ _ hm hm32 ?_ ?_
      · by_cases hp : e % 2 = 1
        · rw [if_pos hp]
          exact lt_of_lt_of_le (Nat.mod_lt _ hm) hm32
        · rw [if_neg hp]
          exact hr
      · exact lt_of_lt_of_le (Nat.mod_lt _ hm) hm32
    · rw [if_neg he, if_neg he]

/-! ## C8: modular_exponent -/

/-- C8 (amended: operands in `u32` range, where the `u64` products cannot
wrap): for every base below `2 ^ 32`, every exponent, and every modulo with
`0 < modulo ≤ 2 ^ 32`, `modular_exponent` returns `base ^ exponent % modulo`,
except that exponent 0 yields 1 regardless of base (and of modulo); in
particular `modular_exponent 3 416788 47 = 8` and
`modular_exponent 2 8 300 = 256`. (For larger operands the machine
multiplication wraps; see the counterexample.) -/
theorem modular_exponent_spec :
    (∀ base exponent modulo : Nat, base < 2 ^ 32 → 0 < modulo → modulo ≤ 2 ^ 32 →
      modular_exponent base exponent modulo =
        if exponent = 0 then 1 else base ^ exponent % modulo)
    ∧ modular_exponent 3 416788 47 = 8 ∧ modular_exponent 2 8 300 = 256 := by
  refine ⟨?_, by decide, by decide⟩
  intro b e m hb hm hm32
  rw [modular_exponent, modExpLoop_eq_model e 1 b e m hm hm32 (by norm_num) hb]
  by_cases he : e = 0
  · subst he
    simp [modExpLoopM_exp_zero]
  · rw [if_neg he, modExpLoopM_eq e 1 b e m (by omega) le_rfl, one_mul]

/-- Witness for C8: the theorem applied at base 2, exponent 9, modulo 300. -/
theorem modular_exponent_spec_witness : modular_exponent 2 9 300 = 212 := by
  rw [modular_exponent_spec.1 2 9 300 (by norm_num) (by norm_num) (by norm_num)]
  decide

/-- Counterexample to C8 as stated: at base `2 ^ 32`, exponent 2, modulo
`2 ^ 64 - 1` the squaring `base * base` wraps the `u64` to 0 and the function
returns 0, although `base ^ exponent % modulo = 1`. -/
theorem modular_exponent_wrap_counterexample :
    modular_exponent 4294967296 2 18446744073709551615 = 0
    ∧ 4294967296 ^ 2 % 18446744073709551615 = 1 :=
  ⟨by decide, by decide⟩

/-! ## C10: remove_factors with count 0 -/

/-- C10: for every factorization and every value whatsoever, removing a factor
with count 0 immediately returns the input unchanged, with no check that the
value names a stored factor. -/
theorem remove_factors_count_zero (f : PrimeFactors) (v : Nat) :
    f.remove_factors ⟨v, 0⟩ = some f := rfl

/-! ## C6: extended_euclidean_algorithm -/

theorem eeaLoop_bezout (fuel : Nat) (a b : Int) :
    ∀ r_old r s_old s t_old t : Int,
      a * s_old + b * t_old = r_old → a * s + b * t = r →
      a * (eeaLoop fuel r_old r s_old s t_old t).2.1
        + b * (eeaLoop fuel r_old r s_old s t_old t).2.2
        = (eeaLoop fuel r_old r s_old s t_old t).1 := by
  induction fuel with
  | zero =>
    intro r_old r s_old s t_old t h1 _
    simpa [eeaLoop] using h1
  | succ fuel ih =>
    intro r_old r s_old s t_old t h1 h2
    simp only [eeaLoop]
    by_cases hr : 0 < r
    · rw [if_pos hr]
      exact ih r (r_old - r_old.tdiv r * r) s (s_old - r_old.tdiv r * s) t
        (t_old - r_old.tdiv r * t) h2 (by linear_combination h1 - r_old.tdiv r * h2)
    · rw [if_neg hr]
      exact h1

theorem int_gcd_step (a b : Int) (ha : 0 ≤ a) (hb : 0 < b) :
    Int.gcd b (a % b) = Int.gcd a b := by
  obtain ⟨A, rfl⟩ := Int.eq_ofNat_of_zero_le ha
  obtain ⟨B, rfl⟩ := Int.eq_ofNat_of_zero_le hb.le
  rw [← Int.natCast_mod, Int.gcd_natCast_natCast, Int.gcd_natCast_natCast,
    Nat.gcd_comm B (A % B), ← Nat.gcd_rec, Nat.gcd_comm B A]

theorem eeaLoop_gcd (fuel : Nat) :
    ∀ r_old r s_old s t_old t : Int, 0 ≤ r_old → 0 ≤ r → r.toNat ≤ fuel →
      (eeaLoop fuel r_old r s_old s t_old t).1 = Int.gcd r_old r := by
  induction fuel with
  | zero =>
    intro r_old r s_old s t_old t ho hr hf
    have hr0 : r = 0 := by omega
    subst hr0
    simp [eeaLoop, Int.gcd, Int.natAbs_of_nonneg ho]
  | succ fuel ih =>
    intro r_old r s_old s t_old t ho hr hf
    simp only [eeaLoop]
    by_cases hrp : 0 < r
    · rw [if_pos hrp]
      have hmod : r_old - r_old.tdiv r * r = r_old % r := by
        rw [Int.tdiv_eq_ediv ho hr, Int.emod_def]
        ring
      rw [hmod]
      have h1 : 0 ≤ r_old % r := Int.emod_nonneg r_old (by omega)
      have h2 : r_old % r < r := Int.emod_lt_of_pos r_old hrp
      rw [ih r (r_old % r) s (s_old - r_old.tdiv r * s) t (t_old - r_old.tdiv r * t)
        hrp.le h1 (by omega)]
      exact congrArg Nat.cast (int_gcd_step r_old r ho hrp)
    · rw [if_neg hrp]
      have hr0 : r = 0 := by omega
      subst hr0
      simp [Int.gcd, Int.natAbs_of_nonneg ho]

/-- C6 (amended: the gcd clause needs both inputs non-negative): for all
signed integers `a`, `b`, the triple `(g, s, t)` returned by
`extended_euclidean_algorithm` satisfies the identity `a*s + b*t = g`; the
first component equals the (non-negative) gcd whenever both inputs are
non-negative. (When either input is negative the first component need not be
a gcd even up to sign, in either orientation; see the counterexample.) -/
theorem extended_euclidean_algorithm_spec (a b : Int) :
    a * (extended_euclidean_algorithm a b).2.1 + b * (extended_euclidean_algorithm a b).2.2
      = (extended_euclidean_algorithm a b).1
    ∧ (0 ≤ a → 0 ≤ b → (extended_euclidean_algorithm a b).1 = Int.gcd a b) := by
  constructor
  · exact eeaLoop_bezout (b.toNat + 1) a b a b 1 0 0 1 (by ring) (by ring)
  · intro ha hb
    exact eeaLoop_gcd (b.toNat + 1) a b 1 0 0 1 ha hb (by omega)

/-- Witness for C6: the theorem applied at (16, 21), where the source's unit
test fixes the expected triple. -/
theorem extended_euclidean_algorithm_spec_witness :
    extended_euclidean_algorithm 16 21 = (1, 4, -3)
    ∧ (extended_euclidean_algorithm 16 21).1 = Int.gcd 16 21 :=
  ⟨by decide, (extended_euclidean_algorithm_spec 16 21).2 (by decide) (by decide)⟩

/-- Counterexample to C6 as stated: neither mixed-sign orientation preserves
the gcd property. At `(a, b) = (4, -6)` the loop never runs and the first
component is `4`; at `(a, b) = (-4, 6)` the first quotient truncates to zero
and the loop stops with first component `6`; in both cases the gcd is 2, so
the first component is not a greatest common divisor even up to sign, and
the gcd clause requires both `0 ≤ a` and `0 ≤ b`. -/
theorem extended_euclidean_algorithm_gcd_counterexample :
    (extended_euclidean_algorithm 4 (-6) = (4, 1, 0)
      ∧ Int.gcd 4 (-6) = 2
      ∧ (extended_euclidean_algorithm 4 (-6)).1 ≠ (Int.gcd 4 (-6) : Int)
      ∧ (extended_euclidean_algorithm 4 (-6)).1 ≠ -(Int.gcd 4 (-6) : Int))
    ∧ (extended_euclidean_algorithm (-4) 6 = (6, 0, 1)
      ∧ Int.gcd (-4) 6 = 2
      ∧ (extended_euclidean_algorithm (-4) 6).1 ≠ (Int.gcd (-4) 6 : Int)
      ∧ (extended_euclidean_algorithm (-4) 6).1 ≠ -(Int.gcd (-4) 6 : Int)) :=
  ⟨⟨by decide, by decide, by decide, by decide⟩,
    ⟨by decide, by decide, by decide, by decide⟩⟩

/-! ## C5: multiplicative_inverse -/

theorem mulInvLoopM_spec (fuel : Nat) :
    ∀ a n t t_new r r_new : Nat, 1 ≤ n → r_new ≤ fuel → t ≤ n → t_new ≤ n →
      ((a * t : Nat) : Int) ≡ (r : Int) [ZMOD (n : Int)] →
      ((a * t_new : Nat) : Int) ≡ (r_new : Int) [ZMOD (n : Int)] →
      mulInvLoopM fuel n t t_new r r_new ≤ n
      ∧ ((a : Int) * (mulInvLoopM fuel n t t_new r r_new : Nat) ≡ (Nat.gcd r r_new : Int)
          [ZMOD (n : Int)]) := by
  induction fuel with
  | zero =>
    intro a n t t_new r r_new hn hf ht htn h1 h2
    have hr0 : r_new = 0 := by omega
    subst hr0
    constructor
    · simpa [mulInvLoopM] using ht
    · rw [Nat.gcd_zero_right]
      have h1' := h1
      push_cast at h1'
      simpa [mulInvLoopM] using h1'
  | succ fuel ih =>
    intro a n t t_new r r_new hn hf ht htn h1 h2
    by_cases hr : 0 < r_new
    · simp only [mulInvLoopM, if_pos hr]
      have hfloor : r / r_new * r_new = r_new * (r / r_new) := Nat.mul_comm _ _
      have hdm := Nat.div_add_mod r r_new
      have hmlt : r % r_new < r_new := Nat.mod_lt _ hr
      have hr' : r - r / r_new * r_new = r % r_new := by omega
      have hql : r / r_new * r_new ≤ r := Nat.div_mul_le_self r r_new
      -- congruence carried by the new coefficient
      have hkey : ((a * (if r / r_new * t_new < t then t - r / r_new * t_new
          else n - (r / r_new * t_new - t) % n) : Nat) : Int)
          ≡ ((r - r / r_new * r_new : Nat) : Int) [ZMOD (n : Int)] := by
        have hsub := Int.ModEq.sub h1 (Int.ModEq.mul_left ((r / r_new : Nat) : Int) h2)
        have e5 : ((r - r / r_new * r_new : Nat) : Int)
            = (r : Int) - ((r / r_new : Nat) : Int) * (r_new : Int) := by
          push_cast [Nat.cast_sub hql]
          ring
        by_cases hts : r / r_new * t_new < t
        · rw [if_pos hts]
          have e1 : ((a * (t - r / r_new * t_new) : Nat) : Int)
              = ((a * t : Nat) : Int) - ((r / r_new : Nat) : Int) * ((a * t_new : Nat) : Int) := by
            push_cast [Nat.cast_sub hts.le]
            ring
          rw [e1, e5]
          exact hsub
        · rw [if_neg hts]
          have htle : t ≤ r / r_new * t_new := by omega
          have hx : (r / r_new * t_new - t) % n < n := Nat.mod_lt _ (by omega)
          have c1 : ((a * (n - (r / r_new * t_new - t) % n) : Nat) : Int)
              = (a : Int) * ((n : Int) - (((r / r_new * t_new - t) % n : Nat) : Int)) := by
            push_cast [Nat.cast_sub hx.le]
            ring
          have c2 : (((r / r_new * t_new - t) % n : Nat) : Int)
              ≡ (((r / r_new * t_new - t) : Nat) : Int) [ZMOD (n : Int)] := by
            rw [Int.natCast_mod]
            exact Int.emod_emod_of_dvd _ dvd_rfl
          have c3 : ((n : Int) - (((r / r_new * t_new - t) % n : Nat) : Int))
              ≡ ((t : Int) - ((r / r_new : Nat) : Int) * (t_new : Int)) [ZMOD (n : Int)] := by
            have cn : ((n : Int)) ≡ 0 [ZMOD (n : Int)] := Int.modEq_zero_iff_dvd.mpr dvd_rfl
            refine (cn.sub c2).trans ?_
            have e3 : (0 : Int) - (((r / r_new * t_new - t) : Nat) : Int)
                = (t : Int) - ((r / r_new : Nat) : Int) * (t_new : Int) := by
              push_cast [Nat.cast_sub htle]
              ring
            rw [e3]
          have c4 := Int.ModEq.mul_left (a : Int) c3
          rw [c1]
          refine c4.trans ?_
          have e4 : (a : Int) * ((t : Int) - ((r / r_new : Nat) : Int) * (t_new : Int))
              = ((a * t : Nat) : Int) - ((r / r_new : Nat) : Int) * ((a * t_new : Nat) : Int) := by
            push_cast
            ring
          rw [e4, e5]
          exact hsub
      have htnew : (if r / r_new * t_new < t then t - r / r_new * t_new
          else n - (r / r_new * t_new - t) % n) ≤ n := by
        by_cases hts : r / r_new * t_new < t
        · rw [if_pos hts]; omega
        · rw [if_neg hts]; omega
      obtain ⟨hres1, hres2⟩ := ih a n t_new
        (if r / r_new * t_new < t then t - r / r_new * t_new
          else n - (r / r_new * t_new - t) % n)
        r_new (r - r / r_new * r_new) hn (by omega) htn htnew h2 hkey
      refine ⟨hres1, ?_⟩
      have hgcd : Nat.gcd r_new (r - r / r_new * r_new) = Nat.gcd r r_new := by
        rw [hr', Nat.gcd_comm r_new (r % r_new), ← Nat.gcd_rec, Nat.gcd_comm r_new r]
      rw [← hgcd]
      exact hres2
    · have hr0 : r_new = 0 := by omega
      subst hr0
      constructor
      · simpa [mulInvLoopM] using ht
      · rw [Nat.gcd_zero_right]
        have h1' := h1
        push_cast at h1'
        simpa [mulInvLoopM] using h1'

/-- Below `2 ^ 32` the product `quotient * t_new` cannot overflow: the
quotient is at most `r`, the coefficients stay at most `n`, and
`r * n < 2 ^ 64`, so the wrapped loop agrees with the ideal one. -/
theorem mulInvLoop_eq_model (fuel : Nat) :
    ∀ n t t_new r r_new : Nat, 0 < n → n < 2 ^ 32 → r < 2 ^ 32 → r_new < 2 ^ 32 →
      t ≤ n → t_new ≤ n →
      mulInvLoop fuel n t t_new r r_new = mulInvLoopM fuel n t t_new r r_new := by
  induction fuel with
  | zero => intro n t t_new r r_new _ _ _ _ _ _; rfl
  | succ fuel ih =>
    intro n t t_new r r_new hn0 hn hr hrn ht htn
    simp only [mulInvLoop, mulInvLoopM]
    by_cases h : 0 < r_new
    · rw [if_pos h, if_pos h]
      have hq : r / r_new ≤ r := Nat.div_le_self r r_new
      have hqt : r / r_new * t_new < 2 ^ 64 := by
        calc r / r_new * t_new ≤ r * n := Nat.mul_le_mul hq htn
          _ ≤ (2 ^ 32 - 1) * (2 ^ 32 - 1) := Nat.mul_le_mul (by omega) (by omega)
          _ < 2 ^ 64 := by norm_num
      rw [Nat.mod_eq_of_lt hqt]
      have hql : r / r_new * r_new ≤ r := Nat.div_mul_le_self r r_new
      refine ih n t_new _ r_new (r - r / r_new * r_new) hn0 hn hrn (by omega) htn ?_
      by_cases hts : r / r_new * t_new < t
      · rw [if_pos hts]
        omega
      · rw [if_neg hts]
        have := Nat.mod_lt (r / r_new * t_new - t) hn0
        omega
    · rw [if_neg h, if_neg h]

/-- C5 (amended: modulus at least 2, both operands below `2 ^ 32` so that the
`u64` product `quotient * t_new` cannot wrap): for coprime `a`, `n`,
`multiplicative_inverse a n` lies in `[0, n)` and multiplies with `a` to 1
modulo `n`. (At `n = 1` the function returns `1 = n` itself, outside the
claimed range, and above `2 ^ 32` the wrap can destroy the congruence; see
the counterexample.) -/
theorem multiplicative_inverse_spec (a n : Nat) (ha : a < 2 ^ 32) (hn : 2 ≤ n)
    (hn32 : n < 2 ^ 32) (hg : Nat.gcd a n = 1) :
    multiplicative_inverse a n < n ∧ a * multiplicative_inverse a n % n = 1 := by
  have h0 : ((a * 0 : Nat) : Int) ≡ (n : Int) [ZMOD (n : Int)] := by
    simpa using (Int.modEq_zero_iff_dvd.mpr (dvd_refl (n : Int))).symm
  have h1 : ((a * 1 : Nat) : Int) ≡ (a : Int) [ZMOD (n : Int)] := by
    simp [Int.ModEq]
  obtain ⟨hle, hcong⟩ := mulInvLoopM_spec a a n 0 1 n a (by omega) le_rfl (by omega) (by omega) h0 h1
  have hgna : Nat.gcd n a = 1 := by rw [Nat.gcd_comm]; exact hg
  rw [hgna] at hcong
  have hres : multiplicative_inverse a n = mulInvLoopM a n 0 1 n a :=
    mulInvLoop_eq_model a n 0 1 n a (by omega) hn32 hn32 ha (by omega) (by omega)
  rw [← hres] at hle hcong
  have hmain : a * multiplicative_inverse a n % n = 1 % n := by
    have h2 : ((a : Int) * ((multiplicative_inverse a n : Nat) : Int)) % ((n : Nat) : Int)
        = (((1 : Nat) : Int)) % ((n : Nat) : Int) := hcong
    have h3 : ((a * multiplicative_inverse a n % n : Nat) : Int) = ((1 % n : Nat) : Int) := by
      push_cast
      exact h2
    exact_mod_cast h3
  rw [Nat.mod_eq_of_lt (by omega : 1 < n)] at hmain
  have hne : multiplicative_inverse a n ≠ n := by
    intro heq
    rw [heq, Nat.mul_mod_left] at hmain
    omega
  exact ⟨by omega, hmain⟩

/-- Witness for C5: the theorem applied at `a = 3`, `n = 7`. -/
theorem multiplicative_inverse_spec_witness :
    multiplicative_inverse 3 7 < 7 ∧ 3 * multiplicative_inverse 3 7 % 7 = 1 :=
  multiplicative_inverse_spec 3 7 (by norm_num) (by norm_num) (by norm_num) (by decide)

/-- Counterexample to C5 as stated: at the coprime pair `a = 1`, `n = 1` the
function returns 1, outside the range `[0, 1)`; and at the coprime in-range
pair `a = 267461`, `n = 10387487470760934340` the `u64` product
`quotient * t_new` wraps and the returned value is not an inverse of `a` at
all (debug builds panic on the overflow instead). -/
theorem multiplicative_inverse_range_counterexample :
    (Nat.gcd 1 1 = 1 ∧ multiplicative_inverse 1 1 = 1
      ∧ ¬ multiplicative_inverse 1 1 < 1)
    ∧ (Nat.gcd 267461 10387487470760934340 = 1
      ∧ 267461 * multiplicative_inverse 267461 10387487470760934340
          % 10387487470760934340 ≠ 1) :=
  ⟨⟨by decide, by decide, by decide⟩, ⟨by decide, by decide⟩⟩

/-! ## The trial-division engine -/

theorem otherProd_nil : otherProd [] = 1 := rfl

theorem otherProd_cons (e : PrimeFactor) (l : List PrimeFactor) :
    otherProd (e :: l) = e.value ^ e.count * otherProd l := by
  simp [otherProd]

theorem otherProd_append (l1 l2 : List PrimeFactor) :
    otherProd (l1 ++ l2) = otherProd l1 * otherProd l2 := by
  simp [otherProd]

theorem countsSum_nil : countsSum [] = 0 := rfl

theorem countsSum_cons (e : PrimeFactor) (l : List PrimeFactor) :
    countsSum (e :: l) = e.count + countsSum l := by
  simp [countsSum]

theorem countsSum_append (l1 l2 : List PrimeFactor) :
    countsSum (l1 ++ l2) = countsSum l1 + countsSum l2 := by
  simp [countsSum]

theorem prime_not_dvd_otherProd (p : Nat) (hp : p.Prime) (l : List PrimeFactor)
    (h : ∀ e ∈ l, ¬ p ∣ e.value) : ¬ p ∣ otherProd l := by
  induction l with
  | nil => simpa [otherProd] using hp.one_lt.ne'
  | cons e rest ih =>
    rw [otherProd_cons]
    intro hdvd
    rcases (Nat.Prime.dvd_mul hp).mp hdvd with h1 | h1
    · exact h e (List.mem_cons_self e rest) (hp.dvd_of_dvd_pow h1)
    · exact ih (fun e he => h e (List.mem_cons_of_mem _ he)) h1

theorem prime_of_factors_gt_sqrt (m : Nat) (h2 : 2 ≤ m)
    (h : ∀ q : Nat, q.Prime → q ∣ m → Nat.sqrt m < q) : m.Prime := by
  by_contra hnp
  have hmf := Nat.minFac_prime (show m ≠ 1 by omega)
  have hdvd := Nat.minFac_dvd m
  have hlt := h _ hmf hdvd
  have hsq := Nat.minFac_sq_le_self (show 0 < m by omega) hnp
  rw [pow_two] at hsq
  have hmm : m < m.minFac * m.minFac := Nat.sqrt_lt.mp hlt
  omega

theorem divideOutFuel_pos_iff (fuel n d : Nat) (hf : 1 ≤ fuel) :
    0 < (divideOutFuel fuel n d).1 ↔ n % d = 0 := by
  cases fuel with
  | zero => exact absurd hf (by omega)
  | succ k =>
    simp only [divideOutFuel]
    by_cases h : n % d = 0
    · rw [if_pos h]
      simp [h]
    · rw [if_neg h]
      simp [h]

theorem divideOutFuel_spec (fuel : Nat) : ∀ n d : Nat, 2 ≤ d → 1 ≤ n → n ≤ fuel →
    n = d ^ (divideOutFuel fuel n d).1 * (divideOutFuel fuel n d).2
    ∧ ¬ d ∣ (divideOutFuel fuel n d).2
    ∧ 1 ≤ (divideOutFuel fuel n d).2 := by
  induction fuel with
  | zero => intro n d _ hn hf; exact absurd hn (by omega)
  | succ fuel ih =>
    intro n d hd hn hf
    simp only [divideOutFuel]
    by_cases h : n % d = 0
    · rw [if_pos h]
      have hdvd : d ∣ n := Nat.dvd_of_mod_eq_zero h
      have hle : d ≤ n := Nat.le_of_dvd (by omega) hdvd
      have h1 : 1 ≤ n / d := (Nat.one_le_div_iff (by omega)).mpr hle
      have hlt : n / d < n := Nat.div_lt_self (by omega) (by omega)
      obtain ⟨ha, hb, hc⟩ := ih (n / d) d hd h1 (by omega)
      refine ⟨?_, hb, hc⟩
      calc n = d * (n / d) := (Nat.mul_div_cancel' hdvd).symm
        _ = d * (d ^ (divideOutFuel fuel (n / d) d).1 * (divideOutFuel fuel (n / d) d).2) := by
            rw [← ha]
        _ = d ^ ((divideOutFuel fuel (n / d) d).1 + 1) * (divideOutFuel fuel (n / d) d).2 := by
            rw [pow_succ]; ring
    · rw [if_neg h]
      refine ⟨by simp, ?_, hn⟩
      intro hdvd
      exact h (Nat.mod_eq_zero_of_dvd hdvd)

theorem otherLoop_spec (fuel : Nat) :
    ∀ n divisor : Nat, 1 ≤ n → 5 ≤ divisor → divisor % 2 = 1 →
      (∀ q : Nat, q.Prime → q ∣ n → divisor ≤ q) →
      Nat.sqrt n < divisor + fuel →
      n = otherProd (otherLoop fuel n divisor).1 * (otherLoop fuel n divisor).2
      ∧ (∀ e ∈ (otherLoop fuel n divisor).1, e.value.Prime ∧ divisor ≤ e.value ∧ 1 ≤ e.count)
      ∧ (otherLoop fuel n divisor).1.Pairwise (fun a b => a.value < b.value)
      ∧ 1 ≤ (otherLoop fuel n divisor).2
      ∧ (∀ q : Nat, q.Prime → q ∣ (otherLoop fuel n divisor).2 →
          Nat.sqrt (otherLoop fuel n divisor).2 < q
          ∧ ∀ e ∈ (otherLoop fuel n divisor).1, e.value < q) := by
  induction fuel with
  | zero =>
    intro n divisor hn _ _ hq hsq
    simp only [otherLoop]
    refine ⟨by simp [otherProd], by simp, by simp, hn, ?_⟩
    intro q hqp hqd
    have := hq q hqp hqd
    exact ⟨by omega, by simp⟩
  | succ fuel ih =>
    intro n divisor hn hd5 hdodd hq hsq
    simp only [otherLoop, isqrt_eq]
    by_cases hlim : divisor < Nat.sqrt n + 1
    · rw [if_pos hlim]
      by_cases hc : 0 < (divideOutFuel n n divisor).1
      · rw [if_pos hc]
        have hmod : n % divisor = 0 := (divideOutFuel_pos_iff n n divisor (by omega)).mp hc
        have hdvd : divisor ∣ n := Nat.dvd_of_mod_eq_zero hmod
        have hdprime : divisor.Prime := by
          have ha : divisor.minFac ∣ n := dvd_trans (Nat.minFac_dvd divisor) hdvd
          have hb : divisor ≤ divisor.minFac := hq _ (Nat.minFac_prime (by omega)) ha
          have hcc : divisor.minFac ≤ divisor := Nat.minFac_le (by omega)
          exact Nat.prime_def_minFac.mpr ⟨by omega, by omega⟩
        have hspec := divideOutFuel_spec n n divisor (by omega) hn le_rfl
        have hmdvd : (divideOutFuel n n divisor).2 ∣ n :=
          ⟨divisor ^ (divideOutFuel n n divisor).1, by conv_lhs => rw [hspec.1, mul_comm]⟩
        have hqm : ∀ q : Nat, q.Prime → q ∣ (divideOutFuel n n divisor).2 →
            divisor + 2 ≤ q := by
          intro q hqp hqd
          have hqn : q ∣ n := hqd.trans hmdvd
          have h5 : divisor ≤ q := hq q hqp hqn
          have hne : q ≠ divisor := by rintro rfl; exact hspec.2.1 hqd
          have hodd : q % 2 = 1 := by
            rcases Nat.mod_two_eq_zero_or_one q with h | h
            · have h2 : (2 : Nat) ∣ q := Nat.dvd_of_mod_eq_zero h
              have := (Nat.prime_dvd_prime_iff_eq Nat.prime_two hqp).mp h2
              omega
            · exact h
          omega
        have hsqm : Nat.sqrt (divideOutFuel n n divisor).2 < (divisor + 2) + fuel := by
          have ha : (divideOutFuel n n divisor).2 ≤ n := Nat.le_of_dvd (by omega) hmdvd
          have hb := Nat.sqrt_le_sqrt ha
          omega
        obtain ⟨ihprod, ihent, ihpair, ihm, ihres⟩ :=
          ih (divideOutFuel n n divisor).2 (divisor + 2) hspec.2.2 (by omega) (by omega) hqm hsqm
        have hfinaldvd : (otherLoop fuel (divideOutFuel n n divisor).2 (divisor + 2)).2
            ∣ (divideOutFuel n n divisor).2 :=
          ⟨otherProd (otherLoop fuel (divideOutFuel n n divisor).2 (divisor + 2)).1,
            by conv_lhs => rw [ihprod, mul_comm]⟩
        refine ⟨?_, ?_, ?_, ihm, ?_⟩
        · rw [otherProd_cons, mul_assoc, ← ihprod]
          exact hspec.1
        · intro e he
          rcases List.mem_cons.mp he with h | h
          · subst h
            exact ⟨hdprime, le_rfl, hc⟩
          · obtain ⟨ha, hb, hcc⟩ := ihent e h
            exact ⟨ha, by omega, hcc⟩
        · refine List.Pairwise.cons ?_ ihpair
          intro e he
          have := (ihent e he).2.1
          show divisor < e.value
          omega
        · intro q hqp hqd
          obtain ⟨hs, hv⟩ := ihres q hqp hqd
          refine ⟨hs, ?_⟩
          intro e he
          rcases List.mem_cons.mp he with h | h
          · subst h
            show divisor < q
            have := hqm q hqp (hqd.trans hfinaldvd)
            omega
          · exact hv e h
      · rw [if_neg hc]
        have hmod : ¬ n % divisor = 0 :=
          fun h => hc ((divideOutFuel_pos_iff n n divisor (by omega)).mpr h)
        have hnd : ¬ divisor ∣ n := fun h => hmod (Nat.mod_eq_zero_of_dvd h)
        have hqm : ∀ q : Nat, q.Prime → q ∣ n → divisor + 2 ≤ q := by
          intro q hqp hqd
          have h5 : divisor ≤ q := hq q hqp hqd
          have hne : q ≠ divisor := by rintro rfl; exact hnd hqd
          have hodd : q % 2 = 1 := by
            rcases Nat.mod_two_eq_zero_or_one q with h | h
            · have h2 : (2 : Nat) ∣ q := Nat.dvd_of_mod_eq_zero h
              have := (Nat.prime_dvd_prime_iff_eq Nat.prime_two hqp).mp h2
              omega
            · exact h
          omega
        obtain ⟨ihprod, ihent, ihpair, ihm, ihres⟩ :=
          ih n (divisor + 2) hn (by omega) (by omega) hqm (by omega)
        refine ⟨ihprod, ?_, ihpair, ihm, ihres⟩
        intro e he
        obtain ⟨ha, hb, hcc⟩ := ihent e he
        exact ⟨ha, by omega, hcc⟩
    · rw [if_neg hlim]
      refine ⟨by simp [otherProd], by simp, by simp, hn, ?_⟩
      intro q hqp hqd
      have h1 := hq q hqp hqd
      refine ⟨?_, by simp⟩
      show Nat.sqrt n < q
      omega

theorem computeOthers_spec (n2 : Nat) (h1 : 1 ≤ n2)
    (hq5 : ∀ q : Nat, q.Prime → q ∣ n2 → 5 ≤ q) :
    n2 = otherProd (computeOthers n2)
    ∧ (∀ e ∈ computeOthers n2, e.value.Prime ∧ 3 < e.value ∧ 1 ≤ e.count)
    ∧ (computeOthers n2).Pairwise (fun a b => a.value < b.value) := by
  by_cases hn2 : 1 < n2
  · have hP : computeOthersPair n2 = otherLoop (Nat.sqrt n2 + 1) n2 5 := by
      rw [computeOthersPair, if_pos hn2, isqrt_eq]
    obtain ⟨HLprod, HLent, HLpair, HLm, HLres⟩ :=
      otherLoop_spec (Nat.sqrt n2 + 1) n2 5 h1 le_rfl rfl hq5 (by omega)
    rw [computeOthers, hP]
    by_cases hm : 1 < (otherLoop (Nat.sqrt n2 + 1) n2 5).2
    · rw [if_pos hm]
      have hmdvd : (otherLoop (Nat.sqrt n2 + 1) n2 5).2 ∣ n2 :=
        ⟨otherProd (otherLoop (Nat.sqrt n2 + 1) n2 5).1, by conv_lhs => rw [HLprod, mul_comm]⟩
      have hmprime : (otherLoop (Nat.sqrt n2 + 1) n2 5).2.Prime :=
        prime_of_factors_gt_sqrt _ (by omega) (fun q hq hd => (HLres q hq hd).1)
      have hm5 : 5 ≤ (otherLoop (Nat.sqrt n2 + 1) n2 5).2 := hq5 _ hmprime hmdvd
      have hlv := (HLres _ hmprime dvd_rfl).2
      refine ⟨?_, ?_, ?_⟩
      · rw [otherProd_append]
        have hsing : otherProd [(⟨(otherLoop (Nat.sqrt n2 + 1) n2 5).2, 1⟩ : PrimeFactor)]
            = (otherLoop (Nat.sqrt n2 + 1) n2 5).2 := by
          simp [otherProd]
        rw [hsing]
        exact HLprod
      · intro e he
        rcases List.mem_append.mp he with h | h
        · obtain ⟨ha, hb, hc⟩ := HLent e h
          exact ⟨ha, by omega, hc⟩
        · have he2 : e = ⟨(otherLoop (Nat.sqrt n2 + 1) n2 5).2, 1⟩ := by simpa using h
          subst he2
          refine ⟨hmprime, ?_, le_rfl⟩
          show 3 < (otherLoop (Nat.sqrt n2 + 1) n2 5).2
          omega
      · rw [List.pairwise_append]
        refine ⟨HLpair, by simp, ?_⟩
        intro a ha b hb
        have hb2 : b = ⟨(otherLoop (Nat.sqrt n2 + 1) n2 5).2, 1⟩ := by simpa using hb
        subst hb2
        exact hlv a ha
    · rw [if_neg hm]
      have hm1 : (otherLoop (Nat.sqrt n2 + 1) n2 5).2 = 1 := by omega
      refine ⟨?_, ?_, HLpair⟩
      · conv_lhs => rw [HLprod, hm1, mul_one]
      · intro e he
        obtain ⟨ha, hb, hc⟩ := HLent e he
        exact ⟨ha, by omega, hc⟩
  · have hn2e : n2 = 1 := by omega
    subst hn2e
    exact ⟨by decide, by decide, by decide⟩

theorem valid_parts (others : List PrimeFactor) (n p2 p3 : Nat)
    (hprod : n = 2 ^ p2 * 3 ^ p3 * otherProd others)
    (hent : ∀ e ∈ others, e.value.Prime ∧ 3 < e.value ∧ 1 ≤ e.count)
    (hpair : others.Pairwise (fun a b => a.value < b.value)) :
    PrimeFactors.Valid
      ⟨others, n, p2, p3, p2 + p3 + countsSum others,
        (if 0 < p2 then 1 else 0) + (if 0 < p3 then 1 else 0) + others.length⟩ := by
  refine ⟨hprod, ?_, ?_, hent, hpair, rfl, rfl⟩
  · refine prime_not_dvd_otherProd 2 Nat.prime_two others ?_
    intro e he hd
    obtain ⟨ha, hb, _⟩ := hent e he
    have := (Nat.prime_dvd_prime_iff_eq Nat.prime_two ha).mp hd
    omega
  · refine prime_not_dvd_otherProd 3 Nat.prime_three others ?_
    intro e he hd
    obtain ⟨ha, hb, _⟩ := hent e he
    have := (Nat.prime_dvd_prime_iff_eq Nat.prime_three ha).mp hd
    omega

/-- Validity of the embedded `compute` for every positive `n`. This is a
statement about the embedding (with its exact-root bound); the program
shares it exactly where the f32 bound selects the same divisors, as it
does at the small values used below. -/
theorem compute_valid (n : Nat) (hn : 1 ≤ n) :
    (PrimeFactors.compute n).n = n ∧ (PrimeFactors.compute n).Valid := by
  refine ⟨rfl, ?_⟩
  have h2 := divideOutFuel_spec n n 2 (by omega) hn le_rfl
  have h3 := divideOutFuel_spec (divideOutFuel n n 2).2 (divideOutFuel n n 2).2 3
    (by omega) h2.2.2 le_rfl
  have hq5 : ∀ q : Nat, q.Prime →
      q ∣ (divideOutFuel (divideOutFuel n n 2).2 (divideOutFuel n n 2).2 3).2 → 5 ≤ q := by
    intro q hq hqd
    have hqn1 : q ∣ (divideOutFuel n n 2).2 :=
      hqd.trans ⟨3 ^ (divideOutFuel (divideOutFuel n n 2).2 (divideOutFuel n n 2).2 3).1,
        by conv_lhs => rw [h3.1, mul_comm]⟩
    have hq2 : q ≠ 2 := by rintro rfl; exact h2.2.1 hqn1
    have hq3 : q ≠ 3 := by rintro rfl; exact h3.2.1 hqd
    have hq4 : q ≠ 4 := by rintro rfl; exact absurd hq (by decide)
    have := hq.two_le
    omega
  obtain ⟨hprod, hent, hpair⟩ := computeOthers_spec _ h3.2.2 hq5
  have hfull : n = 2 ^ (divideOutFuel n n 2).1
      * 3 ^ (divideOutFuel (divideOutFuel n n 2).2 (divideOutFuel n n 2).2 3).1
      * otherProd (computeOthers
          (divideOutFuel (divideOutFuel n n 2).2 (divideOutFuel n n 2).2 3).2) := by
    conv_lhs => rw [h2.1, h3.1, hprod, ← mul_assoc]
  exact valid_parts _ _ _ _ hfull hent hpair

/-! ## C2, C3, C10: remove_factors -/

/-- C3: the code violates the `distinct_factor_count` invariant when the
removed value is 3 and a nonzero `power_two` remains: the `value == 3` arm
tests `power_two == 0` where the specification requires the (just
decremented) `power_three`. Removing one 3 from `12 = 2^2 * 3` leaves
`distinct_factor_count = 2` although only one exponent slot (power_two) is
nonzero, so the result violates the invariants (the correct count is 1). -/
theorem remove_factors_distinct_bug :
    (PrimeFactors.compute 12).remove_factors ⟨3, 1⟩
      = some ⟨[], 4, 2, 0, 2, 2⟩
    ∧ ¬ PrimeFactors.Valid ⟨[], 4, 2, 0, 2, 2⟩
    ∧ (if 0 < (2 : Nat) then 1 else 0) + (if 0 < (0 : Nat) then 1 else 0)
        + ([] : List PrimeFactor).length = 1 :=
  ⟨by decide, by decide, by decide⟩
